import Mathlib

/-!
Shallow embedding of selected components of the citra video/crypto source
set: the console-specific CCM primitive (`3ds_ccm.cpp`), the GPU thread
manager (`gpu_thread.cpp`/`gpu_thread.h`), the OpenGL texture mailbox
(`renderer_opengl.cpp`), the on-screen display (`video_presentation.cpp`)
and the video-core resolution-scale policy (`video_core.cpp`), together
with theorems settling the frozen claims about them.

Bytes are modelled as `Nat`; byte buffers as `List Nat` whose length plays
the role of the separate C length parameter.  The underlying AES block
operation (`mbedtls_cipher_update` on a 16-byte block, vendored code that
is outside this source set) is an abstract parameter `E : List Nat →
List Nat` assumed to map every block to a 16-byte block.
-/

namespace HWAES

/-- Error codes returned by the CCM primitive (MBEDTLS_ERR_CCM_BAD_INPUT and
MBEDTLS_ERR_CCM_AUTH_FAILED in the source). -/
inductive CCMError where
  | badInput
  | authFailed
deriving DecidableEq, Repr

/-- Modelled from the spec: `Common::AlignUp(length, AES_BLOCK_SIZE)` from
`common/alignment.h` (not part of the source set) — the length "rounded up
to the cipher block size (16 bytes)", i.e. `ceil(L/size)*size`. -/
def alignUp (n size : Nat) : Nat := (n + size - 1) / size * size

/-- Zero-pad a chunk of at most 16 bytes to a full 16-byte block
(`memset(b, 0, 16); memcpy(b, src, use_len)`). -/
def pad16 (chunk : List Nat) : List Nat :=
  chunk ++ List.replicate (16 - chunk.length) 0

/-- Bytewise XOR of two buffers (truncating to the shorter, as the C loops
only run over the source chunk length). -/
def xorBytes (a b : List Nat) : List Nat := List.zipWith (· ^^^ ·) a b

/-- One CBC-MAC update: `y ^= b` bytewise followed by one block encryption
(the UPDATE_CBC_MAC macro). -/
def macStep (E : List Nat → List Nat) (y b : List Nat) : List Nat :=
  E (xorBytes y b)

/-- Fuel-indexed chunking loop; the fuel only bounds the number of
iterations (one iteration consumes at least one byte, so any fuel of at
least the buffer length gives the loop's behavior). -/
def chunksF : Nat → List Nat → List (List Nat)
  | _, [] => []
  | 0, _ :: _ => []
  | f + 1, c :: cs => (c :: cs).take 16 :: chunksF f ((c :: cs).drop 16)

/-- Split a buffer into chunks of at most 16 bytes, front first, matching
the `use_len = len_left > 16 ? 16 : len_left` loops. -/
def chunks16 (l : List Nat) : List (List Nat) := chunksF l.length l

/-- The length-field loop of `threeds_auth_crypt`: starting from `len_left`,
write `len_left & 0xFF` and shift right by 8, `q` times.  Returns the bytes
in the order they are produced, i.e. `b[15], b[14], ...` (least significant
first). -/
def lenFieldLoop : Nat → Nat → List Nat
  | 0, _ => []
  | q + 1, n => (n &&& 0xFF) :: lenFieldLoop q (n >>> 8)

/-- The flags byte of the first CBC-MAC block `B_0`:
bit 6 = associated data present, bits 5..3 = `(tag_len - 2) / 2` computed in
`size_t` arithmetic (2^64 wraparound — reachable with `tag_len = 0` on the
decrypt path), bits 2..0 = `q - 1`; stored into an `unsigned char`. -/
def ccmFlags (addLen tagLen q : Nat) : Nat :=
  (((0 ||| ((if addLen > 0 then 1 else 0) <<< 6)) |||
      ((((tagLen + 2 ^ 64 - 2) % 2 ^ 64) / 2) <<< 3)) ||| (q - 1)) % 256

/-- The first CBC-MAC block `B_0`: flags byte, nonce, then the `q`-byte
big-endian length field written by `lenFieldLoop` (the loop writes
`b[15-i]`, so the produced little-endian list is reversed here). -/
def ccmB0 (iv : List Nat) (addLen tagLen q alen : Nat) : List Nat :=
  ccmFlags addLen tagLen q :: iv ++ (lenFieldLoop q alen).reverse

/-- The CBC-MAC blocks derived from the associated data: a first block
carrying the 16-bit big-endian length and the first 14 bytes, then 16-byte
chunks, each zero-padded. -/
def addBlocks (addLen : Nat) (add : List Nat) : List (List Nat) :=
  pad16 (((addLen >>> 8) &&& 0xFF) :: (addLen &&& 0xFF) :: add.take 14) ::
    (chunks16 (add.drop 14)).map pad16

/-- CBC-MAC over the associated data, skipped entirely when `add_len = 0`
(the `if (add_len > 0)` guard in the source). -/
def authAdd (E : List Nat → List Nat) (y : List Nat) (add : List Nat) : List Nat :=
  if add.length = 0 then y else (addBlocks add.length add).foldl (macStep E) y

/-- One counter increment: `for (i = 0; i < q; i++) if (++ctr[15-i] != 0)
break;`, acting on the low `q` counter bytes given least-significant
first. -/
def rippleIncr : List Nat → List Nat
  | [] => []
  | x :: xs =>
    if (x + 1) % 256 ≠ 0 then (x + 1) % 256 :: xs
    else (x + 1) % 256 :: rippleIncr xs

/-- Assemble the 16-byte counter block from the fixed head `q-1 :: nonce`
and the `q` counter bytes held least-significant first. -/
def ctrBlockOf (q : Nat) (iv suffixLE : List Nat) : List Nat :=
  (q - 1) :: iv ++ suffixLE.reverse

/-- Encryption versus decryption direction (CCM_ENCRYPT / CCM_DECRYPT). -/
inductive CCMMode where
  | encrypt
  | decrypt
deriving DecidableEq, Repr

/-- Fuel-indexed form of the authenticate-and-crypt message loop; one
iteration consumes at least one byte, so any fuel of at least the buffer
length gives the loop's behavior. -/
def msgLoopF (E : List Nat → List Nat) (mode : CCMMode) (q : Nat) (iv : List Nat) :
    Nat → List Nat → List Nat → List Nat → List Nat × List Nat
  | _, y, _, [] => ([], y)
  | 0, y, _, _ :: _ => ([], y)
  | f + 1, y, s, c :: cs =>
    let rest := c :: cs
    let chunk := rest.take 16
    let ks := E (ctrBlockOf q iv s)
    let out := xorBytes chunk ks
    let y1 := match mode with
      | .encrypt => macStep E y (pad16 chunk)
      | .decrypt => macStep E y (pad16 out)
    let next := msgLoopF E mode q iv f y1 (rippleIncr s) (rest.drop 16)
    (out ++ next.1, next.2)

/-- The authenticate-and-crypt message loop of `threeds_auth_crypt`:
processes `rest` in chunks of at most 16 bytes; per chunk, encrypt mode
MACs the plaintext chunk then CTR-masks it, decrypt mode CTR-unmasks then
MACs the produced output.  Returns the concatenated output and the final
CBC-MAC state. -/
def msgLoop (E : List Nat → List Nat) (mode : CCMMode) (q : Nat) (iv : List Nat)
    (y s rest : List Nat) : List Nat × List Nat :=
  msgLoopF E mode q iv rest.length y s rest

/-- The counter-field width `q = 16 - 1 - iv_len`. -/
def ccmQ (iv : List Nat) : Nat := 16 - 1 - iv.length

/-- The CBC-MAC state after absorbing `B_0` and the associated data
(`y` just before the message loop starts). -/
def ccmY1 (E : List Nat → List Nat) (iv add : List Nat) (tagLen alen : Nat) :
    List Nat :=
  authAdd E (macStep E (List.replicate 16 0) (ccmB0 iv add.length tagLen (ccmQ iv) alen)) add

/-- The initial low counter bytes (least significant first): the source sets
them to zero and then `ctr[15] = 1`. -/
def ccmS0 (q : Nat) : List Nat := 1 :: List.replicate (q - 1) 0

/-- The successful-path computation of `threeds_auth_crypt`: CBC-MAC over
`B_0` and the associated data, the CTR/MAC message loop, and the final tag
masking (reset counter, `CTR_CRYPT(y, y, 16)`, truncate to `tag_len`). -/
def ccmRun (E : List Nat → List Nat) (mode : CCMMode)
    (iv add input : List Nat) (tagLen : Nat) : List Nat × List Nat :=
  let q := ccmQ iv
  let r := msgLoop E mode q iv (ccmY1 E iv add tagLen (alignUp input.length 16))
    (ccmS0 q) input
  (r.1, (xorBytes r.2 (E (ctrBlockOf q iv (List.replicate q 0)))).take tagLen)

/-- Shallow embedding of `threeds_auth_crypt`: parameter validation, the
`B_0` length-fit check (`len_left > 0` after writing `q` bytes), then the
cryptographic work of `ccmRun`.  Buffer lengths are the lengths of the
lists.  Returns the output buffer and the `tag_len`-byte tag. -/
def threeds_auth_crypt (E : List Nat → List Nat) (mode : CCMMode)
    (iv add input : List Nat) (tagLen : Nat) :
    Except CCMError (List Nat × List Nat) :=
  if tagLen = 2 ∨ tagLen > 16 ∨ tagLen % 2 ≠ 0 then .error .badInput
  else if iv.length < 7 ∨ iv.length > 13 then .error .badInput
  else if add.length > 0xFF00 then .error .badInput
  else if alignUp input.length 16 >>> (8 * ccmQ iv) > 0 then .error .badInput
  else .ok (ccmRun E mode iv add input tagLen)

/-- Shallow embedding of `threeds_ccm_encrypt_and_tag`: rejects a zero tag
length, then runs `threeds_auth_crypt` in encrypt mode. -/
def threeds_ccm_encrypt_and_tag (E : List Nat → List Nat)
    (iv add input : List Nat) (tagLen : Nat) :
    Except CCMError (List Nat × List Nat) :=
  if tagLen = 0 then .error .badInput
  else threeds_auth_crypt E .encrypt iv add input tagLen

/-- Result of `threeds_ccm_auth_decrypt`, carrying the final contents of
the caller's output buffer where the call writes it. -/
inductive DecryptResult where
  | badInput
  | authFailed (output : List Nat)
  | ok (output : List Nat)
deriving DecidableEq, Repr

/-- Shallow embedding of `threeds_ccm_auth_decrypt`: run
`threeds_auth_crypt` in decrypt mode to obtain the output and the computed
tag, then compare against the supplied tag with the XOR-accumulate loop;
on mismatch zero-wipe the output (`mbedtls_platform_zeroize`).  The tag
buffer's length plays the role of `tag_len`. -/
def threeds_ccm_auth_decrypt (E : List Nat → List Nat)
    (iv add input tag : List Nat) : DecryptResult :=
  match threeds_auth_crypt E .decrypt iv add input tag.length with
  | .error _ => .badInput
  | .ok r =>
    let diff := (xorBytes tag r.2).foldl (· ||| ·) 0
    if diff ≠ 0 then .authFailed (List.replicate input.length 0)
    else .ok r.1

/-- Spec-side big-endian byte encoding: `q` bytes, most significant first;
byte `j` is `n / 256^(q-1-j) mod 256`. -/
def beBytes (q n : Nat) : List Nat :=
  (List.range q).map fun j => n / 256 ^ (q - 1 - j) % 256

/-- A concrete 16-byte block permutation used to instantiate the abstract
cipher in witnesses: zero-pad-then-truncate to 16 bytes. -/
def testCipher (b : List Nat) : List Nat := (pad16 b).take 16

theorem testCipher_length (b : List Nat) : (testCipher b).length = 16 := by
  simp [testCipher, pad16]
  omega

theorem xorBytes_length (a b : List Nat) :
    (xorBytes a b).length = min a.length b.length := by
  simp [xorBytes]

theorem xorBytes_cancel : ∀ (a b : List Nat), a.length ≤ b.length →
    xorBytes (xorBytes a b) b = a
  | [], _, _ => rfl
  | _ :: _, [], h => by simp at h
  | x :: xs, y :: ys, h => by
    simp only [xorBytes, List.zipWith_cons_cons]
    rw [Nat.xor_cancel_right]
    have ih := xorBytes_cancel xs ys (by simpa using h)
    simpa [xorBytes] using ih

theorem xorBytes_self : ∀ (a : List Nat), xorBytes a a = List.replicate a.length 0
  | [] => rfl
  | x :: xs => by
    simp only [xorBytes, List.zipWith_cons_cons, List.length_cons,
      List.replicate_succ, Nat.xor_self]
    exact congrArg _ (xorBytes_self xs)

theorem lor_eq_zero {a b : Nat} (h : a ||| b = 0) : a = 0 ∧ b = 0 := by
  constructor <;>
  · apply Nat.eq_of_testBit_eq
    intro i
    have h2 := congrArg (fun n => Nat.testBit n i) h
    simp [Nat.testBit_lor] at h2
    simp [h2]

theorem foldl_lor_eq_zero : ∀ (l : List Nat) (acc : Nat),
    (l.foldl (· ||| ·) acc = 0 ↔ acc = 0 ∧ ∀ x ∈ l, x = 0)
  | [], acc => by simp
  | x :: xs, acc => by
    simp only [List.foldl_cons, foldl_lor_eq_zero xs (acc ||| x), List.mem_cons]
    constructor
    · rintro ⟨h0, hall⟩
      obtain ⟨ha, hx⟩ := lor_eq_zero h0
      exact ⟨ha, fun y hy => hy.elim (fun e => e ▸ hx) (hall y)⟩
    · rintro ⟨ha, hall⟩
      refine ⟨?_, fun y hy => hall y (Or.inr hy)⟩
      rw [ha, hall x (Or.inl rfl)]
      rfl

theorem xorBytes_all_zero : ∀ (a b : List Nat), a.length = b.length →
    ((∀ z ∈ xorBytes a b, z = 0) ↔ a = b)
  | [], [], _ => by simp [xorBytes]
  | [], _ :: _, h => by simp at h
  | _ :: _, [], h => by simp at h
  | x :: xs, y :: ys, h => by
    have ih := xorBytes_all_zero xs ys (by simpa using h)
    simp only [xorBytes, List.zipWith_cons_cons, List.mem_cons] at *
    constructor
    · intro hz
      have hx : x = y := Nat.xor_eq_zero.mp (hz _ (Or.inl rfl))
      have ht : xs = ys := ih.mp (fun z hzz => hz z (Or.inr hzz))
      rw [hx, ht]
    · intro he
      injection he with h1 h2
      subst h1
      subst h2
      intro z hz
      rcases hz with hz | hz
      · simpa [Nat.xor_self] using hz
      · exact (ih.mpr rfl) z hz

theorem diff_eq_zero_iff (a b : List Nat) (h : a.length = b.length) :
    ((xorBytes a b).foldl (· ||| ·) 0 = 0 ↔ a = b) := by
  rw [foldl_lor_eq_zero]
  simp only [true_and]
  exact xorBytes_all_zero a b h

theorem msgLoopF_nil (E : List Nat → List Nat) (mode : CCMMode) (q f : Nat)
    (iv y s : List Nat) : msgLoopF E mode q iv f y s [] = ([], y) := by
  cases f <;> rfl

theorem msgLoopF_congr (E : List Nat → List Nat) (mode : CCMMode) (q : Nat)
    (iv : List Nat) : ∀ (n f g : Nat) (rest : List Nat), rest.length ≤ n →
    rest.length ≤ f → rest.length ≤ g → ∀ y s,
    msgLoopF E mode q iv f y s rest = msgLoopF E mode q iv g y s rest := by
  intro n
  induction n with
  | zero =>
    intro f g rest h hf hg y s
    have hnil : rest = [] := List.eq_nil_of_length_eq_zero (by omega)
    subst hnil
    rw [msgLoopF_nil, msgLoopF_nil]
  | succ n ih =>
    intro f g rest h hf hg y s
    match rest with
    | [] => rw [msgLoopF_nil, msgLoopF_nil]
    | c :: cs =>
      match f, g with
      | f' + 1, g' + 1 =>
        simp only [msgLoopF]
        rw [ih f' g' ((c :: cs).drop 16)
          (by simp only [List.length_drop, List.length_cons] at *; omega)
          (by simp only [List.length_drop, List.length_cons] at *; omega)
          (by simp only [List.length_drop, List.length_cons] at *; omega)]

theorem msgLoop_nil (E : List Nat → List Nat) (mode : CCMMode) (q : Nat)
    (iv y s : List Nat) : msgLoop E mode q iv y s [] = ([], y) := rfl

theorem msgLoop_ne_nil (E : List Nat → List Nat) (mode : CCMMode) (q : Nat)
    (iv y s rest : List Nat) (h : rest ≠ []) :
    msgLoop E mode q iv y s rest =
      (xorBytes (rest.take 16) (E (ctrBlockOf q iv s)) ++
        (msgLoop E mode q iv
          (match mode with
            | .encrypt => macStep E y (pad16 (rest.take 16))
            | .decrypt =>
                macStep E y (pad16 (xorBytes (rest.take 16) (E (ctrBlockOf q iv s)))))
          (rippleIncr s) (rest.drop 16)).1,
       (msgLoop E mode q iv
          (match mode with
            | .encrypt => macStep E y (pad16 (rest.take 16))
            | .decrypt =>
                macStep E y (pad16 (xorBytes (rest.take 16) (E (ctrBlockOf q iv s)))))
          (rippleIncr s) (rest.drop 16)).2) := by
  match rest with
  | c :: cs =>
    show msgLoopF E mode q iv (cs.length + 1) y s (c :: cs) = _
    simp only [msgLoopF]
    rw [msgLoopF_congr E mode q iv cs.length cs.length ((c :: cs).drop 16).length
      ((c :: cs).drop 16)
      (by simp only [List.length_drop, List.length_cons]; omega)
      (by simp only [List.length_drop, List.length_cons]; omega)
      (le_refl _)]
    rfl

theorem msgLoop_snd_length (E : List Nat → List Nat)
    (hE : ∀ b, (E b).length = 16) (mode : CCMMode) (q : Nat) (iv : List Nat) :
    ∀ (n : Nat) (rest : List Nat), rest.length ≤ n → ∀ (y s : List Nat),
      y.length = 16 → ((msgLoop E mode q iv y s rest).2).length = 16 := by
  intro n
  induction n with
  | zero =>
    intro rest hr y s hy
    have hnil : rest = [] := List.eq_nil_of_length_eq_zero (by omega)
    subst hnil
    rw [msgLoop_nil]
    exact hy
  | succ n ih =>
    intro rest hr y s hy
    match rest with
    | [] =>
      rw [msgLoop_nil]
      exact hy
    | c :: cs =>
      rw [msgLoop_ne_nil E mode q iv y s _ (by simp)]
      apply ih
      · simp only [List.length_drop, List.length_cons] at *
        omega
      · cases mode <;> simp [macStep, hE]

theorem msgLoop_cons_encrypt (E : List Nat → List Nat) (q : Nat)
    (iv y s rest : List Nat) (h : rest ≠ []) :
    msgLoop E .encrypt q iv y s rest =
      (xorBytes (rest.take 16) (E (ctrBlockOf q iv s)) ++
        (msgLoop E .encrypt q iv (macStep E y (pad16 (rest.take 16)))
          (rippleIncr s) (rest.drop 16)).1,
       (msgLoop E .encrypt q iv (macStep E y (pad16 (rest.take 16)))
          (rippleIncr s) (rest.drop 16)).2) := by
  rw [msgLoop_ne_nil E .encrypt q iv y s rest h]

theorem msgLoop_cons_decrypt (E : List Nat → List Nat) (q : Nat)
    (iv y s rest : List Nat) (h : rest ≠ []) :
    msgLoop E .decrypt q iv y s rest =
      (xorBytes (rest.take 16) (E (ctrBlockOf q iv s)) ++
        (msgLoop E .decrypt q iv
          (macStep E y (pad16 (xorBytes (rest.take 16) (E (ctrBlockOf q iv s)))))
          (rippleIncr s) (rest.drop 16)).1,
       (msgLoop E .decrypt q iv
          (macStep E y (pad16 (xorBytes (rest.take 16) (E (ctrBlockOf q iv s)))))
          (rippleIncr s) (rest.drop 16)).2) := by
  rw [msgLoop_ne_nil E .decrypt q iv y s rest h]

theorem msgLoop_roundtrip (E : List Nat → List Nat)
    (hE : ∀ b, (E b).length = 16) (q : Nat) (iv : List Nat) :
    ∀ (n : Nat) (rest : List Nat), rest.length ≤ n → ∀ (y s : List Nat),
      msgLoop E .decrypt q iv y s (msgLoop E .encrypt q iv y s rest).1 =
        (rest, (msgLoop E .encrypt q iv y s rest).2) := by
  intro n
  induction n with
  | zero =>
    intro rest hr y s
    have hnil : rest = [] := List.eq_nil_of_length_eq_zero (by omega)
    subst hnil
    simp [msgLoop_nil]
  | succ n ih =>
    intro rest hr y s
    match rest with
    | [] => simp [msgLoop_nil]
    | c :: cs =>
      have hks : (E (ctrBlockOf q iv s)).length = 16 := hE _
      have hchunk : ((c :: cs).take 16).length = min (cs.length + 1) 16 := by
        simp only [List.length_take, List.length_cons]
        omega
      have hout : (xorBytes ((c :: cs).take 16) (E (ctrBlockOf q iv s))).length
          = min (cs.length + 1) 16 := by
        rw [xorBytes_length, hks, hchunk]
        omega
      rw [msgLoop_cons_encrypt E q iv y s _ (by simp)]
      by_cases hlen : cs.length + 1 ≤ 16
      · -- single (possibly partial) chunk: the recursion bottoms out immediately
        have hdrop : (c :: cs).drop 16 = [] :=
          List.drop_eq_nil_of_le (by simpa using hlen)
        have htake : (c :: cs).take 16 = c :: cs :=
          List.take_of_length_le (by simpa using hlen)
        rw [hdrop, msgLoop_nil]
        simp only [List.append_nil]
        have houtne : xorBytes ((c :: cs).take 16) (E (ctrBlockOf q iv s)) ≠ [] := by
          intro he
          rw [he] at hout
          simp at hout
          omega
        rw [msgLoop_cons_decrypt E q iv y s _ houtne]
        have htake2 : (xorBytes ((c :: cs).take 16) (E (ctrBlockOf q iv s))).take 16 =
            xorBytes ((c :: cs).take 16) (E (ctrBlockOf q iv s)) :=
          List.take_of_length_le (by omega)
        have hdrop2 : (xorBytes ((c :: cs).take 16) (E (ctrBlockOf q iv s))).drop 16 = [] :=
          List.drop_eq_nil_of_le (by omega)
        rw [htake2, hdrop2, msgLoop_nil]
        rw [xorBytes_cancel _ _ (by omega)]
        rw [htake]
        simp
      · -- full 16-byte chunk followed by a nonempty remainder
        have hchunk16 : ((c :: cs).take 16).length = 16 := by omega
        have hout16 : (xorBytes ((c :: cs).take 16) (E (ctrBlockOf q iv s))).length = 16 := by
          omega
        have houtne : xorBytes ((c :: cs).take 16) (E (ctrBlockOf q iv s)) ≠ [] := by
          intro he
          rw [he] at hout16
          simp at hout16
        have hne2 : xorBytes ((c :: cs).take 16) (E (ctrBlockOf q iv s)) ++
            (msgLoop E .encrypt q iv (macStep E y (pad16 ((c :: cs).take 16)))
              (rippleIncr s) ((c :: cs).drop 16)).1 ≠ [] := by
          intro he
          exact houtne (List.append_eq_nil.mp he).1
        rw [msgLoop_cons_decrypt E q iv y s _ hne2]
        have htake3 : ∀ t : List Nat,
            (xorBytes ((c :: cs).take 16) (E (ctrBlockOf q iv s)) ++ t).take 16 =
              xorBytes ((c :: cs).take 16) (E (ctrBlockOf q iv s)) :=
          fun t => List.take_left' hout16
        have hdrop3 : ∀ t : List Nat,
            (xorBytes ((c :: cs).take 16) (E (ctrBlockOf q iv s)) ++ t).drop 16 = t :=
          fun t => List.drop_left' hout16
        rw [htake3, hdrop3]
        rw [xorBytes_cancel _ _ (by omega)]
        have hih := ih ((c :: cs).drop 16)
          (by simp only [List.length_drop, List.length_cons] at *; omega)
          (macStep E y (pad16 ((c :: cs).take 16))) (rippleIncr s)
        rw [hih]
        rw [List.take_append_drop]

theorem msgLoop_fst_length (E : List Nat → List Nat)
    (hE : ∀ b, (E b).length = 16) (mode : CCMMode) (q : Nat) (iv : List Nat) :
    ∀ (n : Nat) (rest : List Nat), rest.length ≤ n → ∀ (y s : List Nat),
      ((msgLoop E mode q iv y s rest).1).length = rest.length := by
  intro n
  induction n with
  | zero =>
    intro rest hr y s
    have hnil : rest = [] := List.eq_nil_of_length_eq_zero (by omega)
    subst hnil
    rw [msgLoop_nil]
  | succ n ih =>
    intro rest hr y s
    match rest with
    | [] => rw [msgLoop_nil]
    | c :: cs =>
      rw [msgLoop_ne_nil E mode q iv y s _ (by simp)]
      simp only [List.length_append]
      rw [ih ((c :: cs).drop 16)
        (by simp only [List.length_drop, List.length_cons] at *; omega)]
      rw [xorBytes_length, hE]
      simp only [List.length_take, List.length_drop, List.length_cons]
      omega

theorem foldl_macStep_length (E : List Nat → List Nat)
    (hE : ∀ b, (E b).length = 16) :
    ∀ (bs : List (List Nat)) (y : List Nat), y.length = 16 →
      ((bs.foldl (macStep E) y).length = 16)
  | [], y, hy => hy
  | b :: bs, y, _ =>
    foldl_macStep_length E hE bs (macStep E y b) (hE _)

theorem authAdd_length (E : List Nat → List Nat)
    (hE : ∀ b, (E b).length = 16) (y add : List Nat) (hy : y.length = 16) :
    (authAdd E y add).length = 16 := by
  unfold authAdd
  split
  · exact hy
  · exact foldl_macStep_length E hE _ y hy

theorem ccmY1_length (E : List Nat → List Nat)
    (hE : ∀ b, (E b).length = 16) (iv add : List Nat) (tagLen alen : Nat) :
    (ccmY1 E iv add tagLen alen).length = 16 :=
  authAdd_length E hE _ add (hE _)

theorem ccmRun_fst (E : List Nat → List Nat) (mode : CCMMode)
    (iv add input : List Nat) (tagLen : Nat) :
    (ccmRun E mode iv add input tagLen).1 =
      (msgLoop E mode (ccmQ iv) iv
        (ccmY1 E iv add tagLen (alignUp input.length 16)) (ccmS0 (ccmQ iv)) input).1 :=
  rfl

theorem ccmRun_snd (E : List Nat → List Nat) (mode : CCMMode)
    (iv add input : List Nat) (tagLen : Nat) :
    (ccmRun E mode iv add input tagLen).2 =
      (xorBytes
        (msgLoop E mode (ccmQ iv) iv
          (ccmY1 E iv add tagLen (alignUp input.length 16)) (ccmS0 (ccmQ iv)) input).2
        (E (ctrBlockOf (ccmQ iv) iv (List.replicate (ccmQ iv) 0)))).take tagLen :=
  rfl

theorem ccmRun_fst_length (E : List Nat → List Nat)
    (hE : ∀ b, (E b).length = 16) (mode : CCMMode)
    (iv add input : List Nat) (tagLen : Nat) :
    ((ccmRun E mode iv add input tagLen).1).length = input.length := by
  rw [ccmRun_fst]
  exact msgLoop_fst_length E hE mode (ccmQ iv) iv input.length input le_rfl _ _

theorem ccmRun_snd_length (E : List Nat → List Nat)
    (hE : ∀ b, (E b).length = 16) (mode : CCMMode)
    (iv add input : List Nat) (tagLen : Nat) (h : tagLen ≤ 16) :
    ((ccmRun E mode iv add input tagLen).2).length = tagLen := by
  rw [ccmRun_snd, List.length_take, xorBytes_length, hE]
  rw [msgLoop_snd_length E hE mode (ccmQ iv) iv input.length input le_rfl _ _
    (ccmY1_length E hE iv add tagLen _)]
  omega

theorem ccmRun_roundtrip (E : List Nat → List Nat)
    (hE : ∀ b, (E b).length = 16) (iv add input : List Nat) (tagLen : Nat) :
    ccmRun E .decrypt iv add (ccmRun E .encrypt iv add input tagLen).1 tagLen =
      (input, (ccmRun E .encrypt iv add input tagLen).2) := by
  have hclen : ((msgLoop E .encrypt (ccmQ iv) iv
      (ccmY1 E iv add tagLen (alignUp input.length 16)) (ccmS0 (ccmQ iv)) input).1).length
      = input.length :=
    msgLoop_fst_length E hE .encrypt (ccmQ iv) iv input.length input le_rfl _ _
  have halen : alignUp ((msgLoop E .encrypt (ccmQ iv) iv
      (ccmY1 E iv add tagLen (alignUp input.length 16)) (ccmS0 (ccmQ iv)) input).1).length 16
      = alignUp input.length 16 := by
    rw [hclen]
  have hrt := msgLoop_roundtrip E hE (ccmQ iv) iv input.length input le_rfl
    (ccmY1 E iv add tagLen (alignUp input.length 16)) (ccmS0 (ccmQ iv))
  apply Prod.ext
  · rw [ccmRun_fst E .encrypt iv add input tagLen,
      ccmRun_fst E .decrypt iv add _ tagLen, halen, hrt]
  · rw [ccmRun_fst E .encrypt iv add input tagLen,
      ccmRun_snd E .decrypt iv add _ tagLen, halen, hrt,
      ccmRun_snd E .encrypt iv add input tagLen]

theorem threeds_auth_crypt_ok (E : List Nat → List Nat) (mode : CCMMode)
    (iv add input : List Nat) (tagLen : Nat)
    (h1 : ¬(tagLen = 2 ∨ tagLen > 16 ∨ tagLen % 2 ≠ 0))
    (h2 : ¬(iv.length < 7 ∨ iv.length > 13))
    (h3 : ¬(add.length > 0xFF00))
    (h4 : ¬(alignUp input.length 16 >>> (8 * ccmQ iv) > 0)) :
    threeds_auth_crypt E mode iv add input tagLen =
      .ok (ccmRun E mode iv add input tagLen) := by
  unfold threeds_auth_crypt
  rw [if_neg h1, if_neg h2, if_neg h3, if_neg h4]

theorem auth_decrypt_of_ok (E : List Nat → List Nat)
    (iv add input tag : List Nat) (r : List Nat × List Nat)
    (h : threeds_auth_crypt E .decrypt iv add input tag.length = .ok r) :
    threeds_ccm_auth_decrypt E iv add input tag =
      (if (xorBytes tag r.2).foldl (· ||| ·) 0 ≠ 0 then
        .authFailed (List.replicate input.length 0)
      else .ok r.1) := by
  unfold threeds_ccm_auth_decrypt
  rw [h]

theorem auth_decrypt_of_error (E : List Nat → List Nat)
    (iv add input tag : List Nat) (e : CCMError)
    (h : threeds_auth_crypt E .decrypt iv add input tag.length = .error e) :
    threeds_ccm_auth_decrypt E iv add input tag = .badInput := by
  unfold threeds_ccm_auth_decrypt
  rw [h]

theorem foldl_lor_self_zero (t : List Nat) :
    (xorBytes t t).foldl (· ||| ·) 0 = 0 := by
  rw [foldl_lor_eq_zero]
  exact ⟨rfl, fun x hx => List.eq_of_mem_replicate (by rwa [xorBytes_self t] at hx)⟩

/-- C1: CCM round trip — for every 16-byte block cipher `E`, nonce of
length 7–13, associated data of at most 0xFF00 bytes, plaintext whose
16-byte-rounded length fits the `q`-byte counter field, and tag length in
4,6,8,10,12,14,16, decrypting the ciphertext and tag produced by
`threeds_ccm_encrypt_and_tag` under the same parameters succeeds and
returns exactly the original plaintext. -/
theorem ccm_roundtrip (E : List Nat → List Nat) (hE : ∀ b, (E b).length = 16)
    (iv add input : List Nat) (tagLen : Nat)
    (hiv7 : 7 ≤ iv.length) (hiv13 : iv.length ≤ 13)
    (hadd : add.length ≤ 0xFF00)
    (ht4 : 4 ≤ tagLen) (ht16 : tagLen ≤ 16) (hteven : tagLen % 2 = 0)
    (hfit : alignUp input.length 16 < 256 ^ ccmQ iv) :
    ∃ c t, threeds_ccm_encrypt_and_tag E iv add input tagLen = .ok (c, t) ∧
      threeds_ccm_auth_decrypt E iv add c t = .ok input := by
  have h1 : ¬(tagLen = 2 ∨ tagLen > 16 ∨ tagLen % 2 ≠ 0) := by omega
  have h2 : ¬(iv.length < 7 ∨ iv.length > 13) := by omega
  have h3 : ¬(add.length > 0xFF00) := by omega
  have hshift : alignUp input.length 16 >>> (8 * ccmQ iv) = 0 := by
    rw [Nat.shiftRight_eq_div_pow]
    apply Nat.div_eq_of_lt
    calc alignUp input.length 16 < 256 ^ ccmQ iv := hfit
      _ = 2 ^ (8 * ccmQ iv) := by rw [pow_mul]; norm_num
  have h4 : ¬(alignUp input.length 16 >>> (8 * ccmQ iv) > 0) := by omega
  refine ⟨(ccmRun E .encrypt iv add input tagLen).1,
    (ccmRun E .encrypt iv add input tagLen).2, ?_, ?_⟩
  · unfold threeds_ccm_encrypt_and_tag
    rw [if_neg (show ¬(tagLen = 0) by omega),
      threeds_auth_crypt_ok E .encrypt iv add input tagLen h1 h2 h3 h4]
  · have htlen : ((ccmRun E .encrypt iv add input tagLen).2).length = tagLen :=
      ccmRun_snd_length E hE .encrypt iv add input tagLen ht16
    have hclen : ((ccmRun E .encrypt iv add input tagLen).1).length = input.length :=
      ccmRun_fst_length E hE .encrypt iv add input tagLen
    have h4c : ¬(alignUp ((ccmRun E .encrypt iv add input tagLen).1).length 16 >>>
        (8 * ccmQ iv) > 0) := by
      rw [hclen]
      exact h4
    have hok : threeds_auth_crypt E .decrypt iv add
        (ccmRun E .encrypt iv add input tagLen).1
        ((ccmRun E .encrypt iv add input tagLen).2).length =
        .ok (ccmRun E .decrypt iv add (ccmRun E .encrypt iv add input tagLen).1 tagLen) := by
      rw [htlen]
      exact threeds_auth_crypt_ok E .decrypt iv add _ tagLen h1 h2 h3 h4c
    rw [auth_decrypt_of_ok E iv add _ _ _ hok, ccmRun_roundtrip E hE iv add input tagLen]
    rw [if_neg (by simpa using foldl_lor_self_zero (ccmRun E .encrypt iv add input tagLen).2)]

theorem threeds_auth_crypt_badInput (E : List Nat → List Nat) (mode : CCMMode)
    (iv add input : List Nat) (tagLen : Nat)
    (h : tagLen % 2 = 1 ∨ tagLen = 2 ∨ 16 < tagLen ∨
      iv.length < 7 ∨ 13 < iv.length ∨ 0xFF00 < add.length) :
    threeds_auth_crypt E mode iv add input tagLen = .error .badInput := by
  unfold threeds_auth_crypt
  by_cases c1 : tagLen = 2 ∨ tagLen > 16 ∨ tagLen % 2 ≠ 0
  · rw [if_pos c1]
  · rw [if_neg c1]
    by_cases c2 : iv.length < 7 ∨ iv.length > 13
    · rw [if_pos c2]
    · rw [if_neg c2]
      by_cases c3 : add.length > 0xFF00
      · rw [if_pos c3]
      · exact absurd h (by push_neg at c1 c2 c3; omega)

/-- C2 (amended): every listed parameter violation is rejected with the
bad-input error before any output is produced, except that
`threeds_ccm_auth_decrypt` accepts tag length 0 (the CCM* loosening kept
by `threeds_auth_crypt`, which only `threeds_ccm_encrypt_and_tag` guards
against): encrypt rejects odd, 0, 2 and >16 tag lengths; decrypt rejects
odd, 2 and >16 tag lengths; both reject nonce lengths outside [7,13] and
associated data longer than 0xFF00 bytes. -/
theorem ccm_validation (E : List Nat → List Nat)
    (iv add input tag : List Nat) (tagLen : Nat) :
    ((tagLen % 2 = 1 ∨ tagLen = 0 ∨ tagLen = 2 ∨ 16 < tagLen ∨
        iv.length < 7 ∨ 13 < iv.length ∨ 0xFF00 < add.length) →
      threeds_ccm_encrypt_and_tag E iv add input tagLen = .error .badInput) ∧
    ((tag.length % 2 = 1 ∨ tag.length = 2 ∨ 16 < tag.length ∨
        iv.length < 7 ∨ 13 < iv.length ∨ 0xFF00 < add.length) →
      threeds_ccm_auth_decrypt E iv add input tag = .badInput) := by
  constructor
  · intro h
    unfold threeds_ccm_encrypt_and_tag
    by_cases h0 : tagLen = 0
    · rw [if_pos h0]
    · rw [if_neg h0]
      exact threeds_auth_crypt_badInput E .encrypt iv add input tagLen (by omega)
  · intro h
    exact auth_decrypt_of_error E iv add input tag .badInput
      (threeds_auth_crypt_badInput E .decrypt iv add input tag.length h)

/-- Witness for C2 at concrete violating parameters (odd tag lengths). -/
theorem ccm_validation_witness :
    threeds_ccm_encrypt_and_tag testCipher [0, 0, 0] [] [] 3 = .error .badInput ∧
    threeds_ccm_auth_decrypt testCipher [0, 0, 0] [] [] [9] = .badInput :=
  ⟨(ccm_validation testCipher [0, 0, 0] [] [] [9] 3).1 (by decide),
   (ccm_validation testCipher [0, 0, 0] [] [] [9] 3).2 (by decide)⟩

/-- Counterexample for C2 as stated: `threeds_ccm_auth_decrypt` accepts a
tag length of 0 (below 4) and returns success, because the `tag_len == 0`
guard present in `threeds_ccm_encrypt_and_tag` is missing on the decrypt
wrapper and `threeds_auth_crypt` itself admits 0 (even, not 2, not above
16). -/
theorem ccm_decrypt_accepts_zero_tag :
    threeds_ccm_auth_decrypt testCipher [1, 2, 3, 4, 5, 6, 7] [] [] [] =
      .ok [] := by
  decide

theorem and255_eq_mod (n : Nat) : n &&& 0xFF = n % 256 := by
  have h := Nat.and_pow_two_sub_one_eq_mod n 8
  norm_num at h
  exact h

theorem shiftr8_eq_div (n : Nat) : n >>> 8 = n / 256 := by
  rw [Nat.shiftRight_eq_div_pow]

theorem beBytes_succ (q n : Nat) :
    beBytes (q + 1) n = beBytes q (n / 256) ++ [n % 256] := by
  unfold beBytes
  rw [List.range_succ, List.map_append]
  congr 1
  · apply List.map_congr_left
    intro j hj
    rw [List.mem_range] at hj
    have h1 : q + 1 - 1 - j = (q - 1 - j) + 1 := by omega
    rw [h1, pow_succ, ← Nat.div_div_eq_div_mul, Nat.div_div_eq_div_mul,
      Nat.div_div_eq_div_mul, Nat.mul_comm]
  · simp

theorem lenFieldLoop_reverse : ∀ (q n : Nat),
    (lenFieldLoop q n).reverse = beBytes q n
  | 0, n => by simp [lenFieldLoop, beBytes]
  | q + 1, n => by
    simp only [lenFieldLoop, List.reverse_cons]
    rw [lenFieldLoop_reverse q (n >>> 8), and255_eq_mod, shiftr8_eq_div, beBytes_succ]

/-- Base-256 big-endian decoding, to state that the length field exactly
represents its value. -/
def beDecode (bs : List Nat) : Nat := bs.foldl (fun acc b => acc * 256 + b) 0

theorem beDecode_append_singleton (bs : List Nat) (x : Nat) :
    beDecode (bs ++ [x]) = beDecode bs * 256 + x := by
  simp [beDecode]

theorem beDecode_beBytes : ∀ (q n : Nat), n < 256 ^ q →
    beDecode (beBytes q n) = n
  | 0, n, h => by
    simp [beBytes, beDecode]
    omega
  | q + 1, n, h => by
    rw [beBytes_succ, beDecode_append_singleton, beDecode_beBytes q (n / 256)
      (by rw [pow_succ] at h; exact Nat.div_lt_of_lt_mul (by omega))]
    omega

theorem alignUp16_eq (n : Nat) : alignUp n 16 = (n + 15) / 16 * 16 := by
  unfold alignUp
  omega

theorem pow256_eq (q : Nat) : (256 : Nat) ^ q = 2 ^ (8 * q) := by
  rw [pow_mul]
  norm_num

/-- C3: the length field written into the first CBC-MAC block `B_0` is the
big-endian encoding, in the low `q = 15 - nonce_length` bytes of `B_0`, of
the plaintext length rounded up to the 16-byte AES block size
(`ceil(L/16)*16`), not of `L` itself; when the rounded value fits in `q`
bytes the field decodes to exactly that value, and when it does not fit
the call fails with the bad-input error. -/
theorem ccm_length_field (E : List Nat → List Nat) (mode : CCMMode)
    (iv add input : List Nat) (tagLen : Nat)
    (hiv7 : 7 ≤ iv.length) (hiv13 : iv.length ≤ 13) :
    (ccmB0 iv add.length tagLen (ccmQ iv) (alignUp input.length 16)).drop
        (1 + iv.length) = beBytes (ccmQ iv) ((input.length + 15) / 16 * 16) ∧
    (alignUp input.length 16 < 256 ^ ccmQ iv →
      beDecode ((ccmB0 iv add.length tagLen (ccmQ iv)
          (alignUp input.length 16)).drop (1 + iv.length)) =
        (input.length + 15) / 16 * 16 ∧
      (input.length % 16 ≠ 0 →
        beDecode ((ccmB0 iv add.length tagLen (ccmQ iv)
            (alignUp input.length 16)).drop (1 + iv.length)) ≠ input.length)) ∧
    (tagLen ≠ 2 → tagLen ≤ 16 → tagLen % 2 = 0 → add.length ≤ 0xFF00 →
      256 ^ ccmQ iv ≤ alignUp input.length 16 →
      threeds_auth_crypt E mode iv add input tagLen = .error .badInput) := by
  have hdropB0 : (ccmB0 iv add.length tagLen (ccmQ iv)
      (alignUp input.length 16)).drop (1 + iv.length) =
      beBytes (ccmQ iv) ((input.length + 15) / 16 * 16) := by
    unfold ccmB0
    rw [List.cons_append, Nat.add_comm 1 iv.length, List.drop_succ_cons,
      List.drop_left, lenFieldLoop_reverse, alignUp16_eq]
  refine ⟨hdropB0, fun hfit => ?_, fun h2' h16' heven' hadd' hnofit => ?_⟩
  · rw [hdropB0, alignUp16_eq] at *
    have hdec := beDecode_beBytes (ccmQ iv) ((input.length + 15) / 16 * 16) hfit
    exact ⟨hdec, fun hmod => by rw [hdec]; omega⟩
  · unfold threeds_auth_crypt
    rw [if_neg (by omega), if_neg (by omega), if_neg (by omega),
      if_pos (by
        rw [Nat.shiftRight_eq_div_pow]
        exact Nat.div_pos (by rw [← pow256_eq]; exact hnofit) (by positivity))]

/-- Witness for C3 at a nonce of length 13 (`q = 2`) and a 3-byte
plaintext, whose length field is 16, plus the overflow failure at a
plaintext long enough that the rounded length does not fit in 2 bytes. -/
theorem ccm_length_field_witness :
    ((ccmB0 [0, 0, 0, 0, 0, 0, 0, 0, 0, 0, 0, 0, 0] 0 4
        (ccmQ [0, 0, 0, 0, 0, 0, 0, 0, 0, 0, 0, 0, 0])
        (alignUp ([5, 6, 7] : List Nat).length 16)).drop 14 =
      beBytes 2 16) ∧
    beDecode ((ccmB0 [0, 0, 0, 0, 0, 0, 0, 0, 0, 0, 0, 0, 0] 0 4
        (ccmQ [0, 0, 0, 0, 0, 0, 0, 0, 0, 0, 0, 0, 0])
        (alignUp ([5, 6, 7] : List Nat).length 16)).drop 14) = 16 ∧
    threeds_auth_crypt testCipher .encrypt [0, 0, 0, 0, 0, 0, 0, 0, 0, 0, 0, 0, 0]
        [] (List.replicate 65536 0) 4 = .error .badInput := by
  have h1 := ccm_length_field testCipher .encrypt
    [0, 0, 0, 0, 0, 0, 0, 0, 0, 0, 0, 0, 0] [] [5, 6, 7] 4
    (by decide) (by decide)
  have h2 := ccm_length_field testCipher .encrypt
    [0, 0, 0, 0, 0, 0, 0, 0, 0, 0, 0, 0, 0] [] (List.replicate 65536 0) 4
    (by decide) (by decide)
  refine ⟨h1.1, ?_, ?_⟩
  · exact (h1.2.1 (by decide)).1
  · exact h2.2.2 (by decide) (by decide) (by decide) (by decide)
      (by rw [List.length_replicate]; decide)

/-- C4: whenever the tag computed on the decrypt path differs from the
supplied tag, `threeds_ccm_auth_decrypt` zero-wipes the whole output
buffer (`length` zero bytes) and fails with the authentication error;
when they are equal it succeeds with the decrypted output in place. -/
theorem ccm_tamper_detection (E : List Nat → List Nat)
    (hE : ∀ b, (E b).length = 16) (iv add input tag : List Nat)
    (hiv7 : 7 ≤ iv.length) (hiv13 : iv.length ≤ 13)
    (hadd : add.length ≤ 0xFF00)
    (ht2 : tag.length ≠ 2) (ht16 : tag.length ≤ 16) (hteven : tag.length % 2 = 0)
    (hfit : alignUp input.length 16 < 256 ^ ccmQ iv) :
    (tag ≠ (ccmRun E .decrypt iv add input tag.length).2 →
      threeds_ccm_auth_decrypt E iv add input tag =
        .authFailed (List.replicate input.length 0)) ∧
    (tag = (ccmRun E .decrypt iv add input tag.length).2 →
      threeds_ccm_auth_decrypt E iv add input tag =
        .ok (ccmRun E .decrypt iv add input tag.length).1) := by
  have h1 : ¬(tag.length = 2 ∨ tag.length > 16 ∨ tag.length % 2 ≠ 0) := by omega
  have h2 : ¬(iv.length < 7 ∨ iv.length > 13) := by omega
  have h3 : ¬(add.length > 0xFF00) := by omega
  have h4 : ¬(alignUp input.length 16 >>> (8 * ccmQ iv) > 0) := by
    rw [Nat.shiftRight_eq_div_pow]
    have hlt : alignUp input.length 16 < 2 ^ (8 * ccmQ iv) := by
      rw [← pow256_eq]
      exact hfit
    have := Nat.div_eq_of_lt hlt
    omega
  have hok := threeds_auth_crypt_ok E .decrypt iv add input tag.length h1 h2 h3 h4
  have hlen2 : ((ccmRun E .decrypt iv add input tag.length).2).length = tag.length :=
    ccmRun_snd_length E hE .decrypt iv add input tag.length ht16
  have hiff := diff_eq_zero_iff tag (ccmRun E .decrypt iv add input tag.length).2
    hlen2.symm
  rw [auth_decrypt_of_ok E iv add input tag _ hok]
  constructor
  · intro hne
    rw [if_pos (show ¬(xorBytes tag
        (ccmRun E .decrypt iv add input tag.length).2).foldl (· ||| ·) 0 = 0 from
      fun h0 => hne (hiff.mp h0))]
  · intro heq
    rw [if_neg (not_not_intro (hiff.mpr heq))]

/-- Witness for C4: one rejected forged tag with the zero-wiped 2-byte
output, and one accepted matching tag. -/
theorem ccm_tamper_detection_witness :
    threeds_ccm_auth_decrypt testCipher [0, 0, 0, 0, 0, 0, 0, 0, 0, 0, 0, 0, 0]
        [3] [5, 6] [9, 9, 9, 9] = .authFailed (List.replicate 2 0) ∧
    threeds_ccm_auth_decrypt testCipher [0, 0, 0, 0, 0, 0, 0, 0, 0, 0, 0, 0, 0]
        [3] [5, 6] [76, 7, 3, 0] = .ok [4, 6] := by
  constructor
  · exact (ccm_tamper_detection testCipher testCipher_length
      [0, 0, 0, 0, 0, 0, 0, 0, 0, 0, 0, 0, 0] [3] [5, 6] [9, 9, 9, 9]
      (by decide) (by decide) (by decide) (by decide) (by decide) (by decide)
      (by decide)).1 (by decide)
  · have h := (ccm_tamper_detection testCipher testCipher_length
      [0, 0, 0, 0, 0, 0, 0, 0, 0, 0, 0, 0, 0] [3] [5, 6] [76, 7, 3, 0]
      (by decide) (by decide) (by decide) (by decide) (by decide) (by decide)
      (by decide)).2 (by decide)
    rw [h]
    decide

/-- Witness for C1 at a concrete cipher and concrete parameters. -/
theorem ccm_roundtrip_witness :
    ∃ c t, threeds_ccm_encrypt_and_tag testCipher
        [0, 0, 0, 0, 0, 0, 0, 0, 0, 0, 0, 0, 0] [1] [5, 6, 7] 4 = .ok (c, t) ∧
      threeds_ccm_auth_decrypt testCipher
        [0, 0, 0, 0, 0, 0, 0, 0, 0, 0, 0, 0, 0] [1] c t = .ok [5, 6, 7] :=
  ccm_roundtrip testCipher testCipher_length
    [0, 0, 0, 0, 0, 0, 0, 0, 0, 0, 0, 0, 0] [1] [5, 6, 7] 4
    (by decide) (by decide) (by decide) (by decide) (by decide) (by decide) (by decide)

end HWAES

namespace GPUThread

/-- The seven GPU-thread command kinds (`CommandData` variant in
`gpu_thread.h`); pointer payloads are modelled as numeric identifiers. -/
inductive CommandData where
  | submitList (head length : Nat)
  | swapBuffers
  | memoryFill (config : Nat) (is_second_filler : Bool)
  | displayTransfer (config : Nat)
  | flushRegion (addr size : Nat)
  | invalidateRegion (addr size : Nat)
  | flushAndInvalidateRegion (addr size : Nat)
deriving DecidableEq, Repr

/-- A queued command with its fence (`CommandDataContainer`). -/
structure CommandDataContainer where
  data : CommandData
  fence : Nat
deriving DecidableEq, Repr

/-- The shared synchronization state (`SynchState`): the SPSC command
queue in enqueue order (front = next to pop), the last assigned fence and
the last signaled fence (both 64-bit counters). -/
structure SynchState where
  is_running : Bool := true
  queue : List CommandDataContainer := []
  last_fence : Nat := 0
  signaled_fence : Nat := 0
deriving DecidableEq, Repr

/-- The state of a fresh `ThreadManager` (value-initialized counters). -/
def initState : SynchState := {}

/-- `ThreadManager::PushCommand`: assign the fence by pre-incrementing the
shared 64-bit counter, push the container, return the fence. -/
def PushCommand (s : SynchState) (command_data : CommandData) : SynchState × Nat :=
  let fence := (s.last_fence + 1) % 2 ^ 64
  ({ s with last_fence := fence, queue := s.queue ++ [⟨command_data, fence⟩] }, fence)

/-- One iteration of the worker's inner pop loop in `RunThread`: pop the
front container, execute it, record its fence as the signaled fence. -/
def executeNext (s : SynchState) : SynchState :=
  match s.queue with
  | [] => s
  | next :: rest => { s with queue := rest, signaled_fence := next.fence }

/-- Run `k` iterations of the worker's pop loop. -/
def execSteps : Nat → SynchState → SynchState
  | 0, s => s
  | k + 1, s => execSteps k (executeNext s)

/-- The wait predicate of `SynchState::WaitForSynchronization(fence)`: the
call returns (immediately, or after being woken) exactly when
`signaled_fence >= fence`. -/
def waitReturns (s : SynchState) (fence : Nat) : Prop :=
  fence ≤ s.signaled_fence

instance (s : SynchState) (fence : Nat) : Decidable (waitReturns s fence) :=
  inferInstanceAs (Decidable (fence ≤ s.signaled_fence))

/-- Push a whole list of commands in order, collecting the fences returned
by `PushCommand`. -/
def pushMany (s : SynchState) : List CommandData → SynchState × List Nat
  | [] => (s, [])
  | c :: cs =>
    let r := PushCommand s c
    let rr := pushMany r.1 cs
    (rr.1, r.2 :: rr.2)

theorem pushMany_spec : ∀ (cmds : List CommandData) (s : SynchState),
    s.last_fence + cmds.length < 2 ^ 64 →
    (pushMany s cmds).2 = List.range' (s.last_fence + 1) cmds.length ∧
    (pushMany s cmds).1.queue = s.queue ++
      List.zipWith CommandDataContainer.mk cmds
        (List.range' (s.last_fence + 1) cmds.length) ∧
    (pushMany s cmds).1.signaled_fence = s.signaled_fence ∧
    (pushMany s cmds).1.last_fence = s.last_fence + cmds.length
  | [], s, _ => by simp [pushMany]
  | c :: cs, s, h => by
    have hfence : (s.last_fence + 1) % 2 ^ 64 = s.last_fence + 1 := by
      apply Nat.mod_eq_of_lt
      simp only [List.length_cons] at h
      omega
    have ih := pushMany_spec cs (PushCommand s c).1
      (by simp only [PushCommand, hfence, List.length_cons] at *; omega)
    simp only [pushMany, PushCommand, hfence, List.range'_succ, List.zipWith_cons_cons,
      List.length_cons]
    simp only [PushCommand, hfence] at ih
    refine ⟨?_, ?_, ?_, ?_⟩
    · rw [ih.1]
    · rw [ih.2.1]
      simp
    · rw [ih.2.2.1]
    · rw [ih.2.2.2]
      omega

theorem execSteps_signaled_range :
    ∀ (k : Nat) (cmds : List CommandData) (m : Nat) (s : SynchState),
    s.queue = List.zipWith CommandDataContainer.mk cmds
      (List.range' (m + 1) cmds.length) →
    k ≤ cmds.length →
    (execSteps k s).signaled_fence =
      if k = 0 then s.signaled_fence else m + k := by
  intro k
  induction k with
  | zero => intro cmds m s _ _; rfl
  | succ k ih =>
    intro cmds m s hq hk
    match cmds with
    | c :: cs =>
      simp only [List.length_cons, List.range'_succ, List.zipWith_cons_cons] at hq
      show (execSteps k (executeNext s)).signaled_fence = _
      have hqe : (executeNext s).queue = List.zipWith CommandDataContainer.mk cs
          (List.range' (m + 1 + 1) cs.length) := by
        simp [executeNext, hq]
      have hse : (executeNext s).signaled_fence = m + 1 := by
        simp [executeNext, hq]
      rw [ih cs (m + 1) (executeNext s) hqe (by simpa using hk), hse]
      by_cases h0 : k = 0 <;> simp [h0] <;> omega

/-- C5: the `k`-th command pushed through `PushCommand` on a fresh manager
is assigned fence `k` (the shared 64-bit counter starts at zero and is
pre-incremented per push, so fences are strictly increasing 1, 2, ...),
the worker records each command's fence as the signaled fence in enqueue
order, and after the worker has executed `k` commands,
`WaitForSynchronization(f)` returns exactly when `f ≤ k` — in particular
immediately when the signaled counter has already reached `f`. -/
theorem fence_monotonicity (cmds : List CommandData)
    (hN : cmds.length < 2 ^ 64) :
    (pushMany initState cmds).2 = List.range' 1 cmds.length ∧
    (∀ k, k ≤ cmds.length →
      (execSteps k (pushMany initState cmds).1).signaled_fence = k ∧
      (∀ f, 1 ≤ f → f ≤ cmds.length →
        (waitReturns (execSteps k (pushMany initState cmds).1) f ↔ f ≤ k))) := by
  have hspec := pushMany_spec cmds initState (by
    show initState.last_fence + cmds.length < 2 ^ 64
    simpa [initState] using hN)
  have hlf : initState.last_fence = 0 := rfl
  have hsf : initState.signaled_fence = 0 := rfl
  rw [hlf, hsf] at hspec
  refine ⟨by simpa using hspec.1, fun k hk => ?_⟩
  have hsig : (execSteps k (pushMany initState cmds).1).signaled_fence =
      if k = 0 then 0 else k := by
    have := execSteps_signaled_range k cmds 0 (pushMany initState cmds).1
      (by
        rw [hspec.2.1]
        simp [initState])
      hk
    rw [this, hspec.2.2.1]
    simp
  have hsig' : (execSteps k (pushMany initState cmds).1).signaled_fence = k := by
    rw [hsig]
    by_cases h0 : k = 0 <;> simp [h0]
  refine ⟨hsig', fun f hf1 hfN => ?_⟩
  unfold waitReturns
  rw [hsig']

/-- Witness for C5 with three concrete commands, two of them executed. -/
theorem fence_monotonicity_witness :
    (pushMany initState [CommandData.swapBuffers, CommandData.submitList 0 2,
      CommandData.flushRegion 4 4]).2 = [1, 2, 3] ∧
    (execSteps 2 (pushMany initState [CommandData.swapBuffers,
      CommandData.submitList 0 2, CommandData.flushRegion 4 4]).1).signaled_fence = 2 ∧
    waitReturns (execSteps 2 (pushMany initState [CommandData.swapBuffers,
      CommandData.submitList 0 2, CommandData.flushRegion 4 4]).1) 2 ∧
    ¬ waitReturns (execSteps 2 (pushMany initState [CommandData.swapBuffers,
      CommandData.submitList 0 2, CommandData.flushRegion 4 4]).1) 3 := by
  have h := fence_monotonicity [CommandData.swapBuffers, CommandData.submitList 0 2,
    CommandData.flushRegion 4 4] (by decide)
  have h2 := h.2 2 (by decide)
  refine ⟨h.1.trans (by decide), h2.1, ?_, ?_⟩
  · exact (h2.2 2 (by decide) (by decide)).mpr (by decide)
  · intro hw
    exact absurd ((h2.2 3 (by decide) (by decide)).mp hw) (by decide)

end GPUThread

namespace OGLMailbox

/-- The fixed number of frames created at mailbox construction
(`SWAP_CHAIN_SIZE = 4`). -/
def SWAP_CHAIN_SIZE : Nat := 4

/-- The mailbox state of `OGLTextureMailbox`: frames are identified by
their index into `swap_chain`.  `free_queue` is a FIFO (front = next to
pop, push at the back); `present_queue` is a deque ordered newest first
(front = head of the list). -/
structure MailboxState where
  free_queue : List Nat
  present_queue : List Nat
  previous_frame : Option Nat
deriving DecidableEq, Repr

/-- The constructor's state: all four frames in the free queue. -/
def initMailbox : MailboxState :=
  { free_queue := [0, 1, 2, 3], present_queue := [], previous_frame := none }

/-- `OGLTextureMailbox::GetRenderFrame`: pop the front of the free queue,
or — when it is empty — steal the back (oldest) entry of the present
deque.  `none` models the undefined behavior of calling `back()` on an
empty deque (shown unreachable under the producer protocol in the frame
conservation theorem). -/
def GetRenderFrame (s : MailboxState) : Option (MailboxState × Nat) :=
  match s.free_queue with
  | [] =>
    match s.present_queue.getLast? with
    | none => none
    | some frame => some ({ s with present_queue := s.present_queue.dropLast }, frame)
  | frame :: rest => some ({ s with free_queue := rest }, frame)

/-- `OGLTextureMailbox::ReleaseRenderFrame`: push the newly rendered frame
to the front of the present deque. -/
def ReleaseRenderFrame (s : MailboxState) (frame : Nat) : MailboxState :=
  { s with present_queue := frame :: s.present_queue }

/-- `OGLTextureMailbox::TryGetPresentFrame` after the bounded wait: if the
present deque is (still) empty, return the previous frame and leave the
state untouched; otherwise push the previous frame (if any) onto the free
queue, take the front (newest) entry, move every remaining queued entry to
the free queue, and record the returned frame as the new previous frame. -/
def TryGetPresentFrame (s : MailboxState) : MailboxState × Option Nat :=
  match s.present_queue with
  | [] => (s, s.previous_frame)
  | frame :: rest =>
    let free1 := match s.previous_frame with
      | none => s.free_queue
      | some p => s.free_queue ++ [p]
    ({ free_queue := free1 ++ rest, present_queue := [],
       previous_frame := some frame }, some frame)

/-- Mailbox operations as invoked by the producer (render thread) and the
consumer (presentation thread). -/
inductive MailboxOp where
  | getRender
  | releaseRender
  | tryGetPresent
deriving DecidableEq, Repr

/-- A mailbox configuration together with the frame (if any) currently
held by the single producer between `GetRenderFrame` and
`ReleaseRenderFrame`. -/
structure Config where
  mb : MailboxState
  held : Option Nat
deriving DecidableEq, Repr

/-- The start configuration: fresh mailbox, producer holding nothing. -/
def initConfig : Config := { mb := initMailbox, held := none }

/-- One protocol step.  `none` marks either a protocol violation by the
producer (acquiring twice, or releasing without holding) or the undefined
`back()` call inside `GetRenderFrame`. -/
def stepOp (c : Config) : MailboxOp → Option Config
  | .getRender =>
    match c.held with
    | some _ => none
    | none =>
      match GetRenderFrame c.mb with
      | none => none
      | some (s, f) => some { mb := s, held := some f }
  | .releaseRender =>
    match c.held with
    | none => none
    | some f => some { mb := ReleaseRenderFrame c.mb f, held := none }
  | .tryGetPresent => some { mb := (TryGetPresentFrame c.mb).1, held := c.held }

/-- Run a sequence of operations from a configuration. -/
def runOps (c : Config) : List MailboxOp → Option Config
  | [] => some c
  | op :: ops =>
    match stepOp c op with
    | none => none
    | some c1 => runOps c1 ops

/-- The multiset of frames distributed over the free queue, the present
deque, the consumer's previous-frame slot and the producer's hand. -/
def framesOf (c : Config) : Multiset Nat :=
  (c.mb.free_queue : Multiset Nat) + (c.mb.present_queue : Multiset Nat) +
    (c.mb.previous_frame.toList : Multiset Nat) + (c.held.toList : Multiset Nat)

theorem framesOf_step (c c' : Config) (op : MailboxOp)
    (h : stepOp c op = some c') : framesOf c' = framesOf c := by
  cases op with
  | getRender =>
    match hheld : c.held with
    | some f =>
      rw [stepOp, hheld] at h
      simp at h
    | none =>
      rw [stepOp, hheld] at h
      match hfree : c.mb.free_queue with
      | f :: rest =>
        rw [GetRenderFrame, hfree] at h
        simp only [Option.some.injEq] at h
        subst h
        unfold framesOf
        simp only [hheld, hfree]
        simp only [← Multiset.coe_add, ← Multiset.cons_coe, ← Multiset.singleton_add,
          Multiset.coe_nil, Option.toList_some, Option.toList_none]
        abel
      | [] =>
        rw [GetRenderFrame, hfree] at h
        match hlast : c.mb.present_queue.getLast? with
        | none =>
          rw [hlast] at h
          simp at h
        | some f =>
          rw [hlast] at h
          simp only [Option.some.injEq] at h
          subst h
          have hne : c.mb.present_queue ≠ [] := by
            intro he
            rw [he] at hlast
            simp at hlast
          have h2 : c.mb.present_queue.dropLast ++ [f] = c.mb.present_queue := by
            have hd := List.dropLast_append_getLast hne
            rw [List.getLast?_eq_getLast _ hne] at hlast
            injection hlast with h3
            rw [h3] at hd
            exact hd
          unfold framesOf
          simp only [hheld, hfree]
          conv_rhs => rw [← h2]
          simp only [← Multiset.coe_add, ← Multiset.cons_coe, ← Multiset.singleton_add,
            Multiset.coe_nil, Option.toList_some, Option.toList_none]
          abel
  | releaseRender =>
    match hheld : c.held with
    | none =>
      rw [stepOp, hheld] at h
      simp at h
    | some f =>
      rw [stepOp, hheld] at h
      simp only [Option.some.injEq] at h
      subst h
      unfold framesOf ReleaseRenderFrame
      simp only [hheld]
      simp only [← Multiset.coe_add, ← Multiset.cons_coe, ← Multiset.singleton_add,
        Multiset.coe_nil, Option.toList_some, Option.toList_none]
      abel
  | tryGetPresent =>
    rw [stepOp] at h
    simp only [Option.some.injEq] at h
    subst h
    match hp : c.mb.present_queue with
    | [] =>
      unfold framesOf TryGetPresentFrame
      rw [hp]
      simp [hp]
    | f :: rest =>
      unfold framesOf TryGetPresentFrame
      rw [hp]
      match hprev : c.mb.previous_frame with
      | none =>
        simp only
        simp only [← Multiset.coe_add, ← Multiset.cons_coe, ← Multiset.singleton_add,
          Multiset.coe_nil, Option.toList_some, Option.toList_none]
        abel
      | some p =>
        simp only
        simp only [← Multiset.coe_add, ← Multiset.cons_coe, ← Multiset.singleton_add,
          Multiset.coe_nil, Option.toList_some, Option.toList_none]
        abel

theorem runOps_preserves : ∀ (ops : List MailboxOp) (c0 c : Config),
    runOps c0 ops = some c → framesOf c = framesOf c0
  | [], c0, c, h => by
    simp only [runOps, Option.some.injEq] at h
    rw [← h]
  | op :: ops, c0, c, h => by
    rw [runOps] at h
    match hstep : stepOp c0 op with
    | none =>
      rw [hstep] at h
      simp at h
    | some c1 =>
      rw [hstep] at h
      rw [runOps_preserves ops c1 c h, framesOf_step c0 c1 op hstep]

end OGLMailbox

namespace OGLMailbox

theorem option_toList_length_le (o : Option Nat) : o.toList.length ≤ 1 := by
  cases o <;> simp

/-- C10: along every operation sequence in which the single producer holds
at most one frame at a time, the four construction-time frames stay
partitioned without duplication or loss among the free queue, the present
deque, the producer's hand and the previous-frame slot; consequently, when
the free queue is empty and the producer holds nothing, the present deque
is nonempty, so `GetRenderFrame` always finds a frame (stealing the back
entry is well-defined). -/
theorem mailbox_frame_conservation (ops : List MailboxOp) (c : Config)
    (h : runOps initConfig ops = some c) :
    framesOf c = ({0, 1, 2, 3} : Multiset Nat) ∧
    (c.held = none → c.mb.free_queue = [] → c.mb.present_queue ≠ []) ∧
    (c.held = none → stepOp c .getRender ≠ none) := by
  have hinv : framesOf c = framesOf initConfig := runOps_preserves ops initConfig c h
  have hinit : framesOf initConfig = ({0, 1, 2, 3} : Multiset Nat) := rfl
  have hmain : framesOf c = ({0, 1, 2, 3} : Multiset Nat) := hinv.trans hinit
  have hcard : c.mb.free_queue.length + c.mb.present_queue.length +
      c.mb.previous_frame.toList.length + c.held.toList.length = 4 := by
    have hc := congrArg Multiset.card hmain
    simp only [framesOf, Multiset.card_add, Multiset.coe_card] at hc
    simpa using hc
  have hpresent : c.held = none → c.mb.free_queue = [] →
      c.mb.present_queue ≠ [] := by
    intro hh hf he
    have hv := option_toList_length_le c.mb.previous_frame
    rw [hh, hf, he] at hcard
    simp at hcard
    omega
  refine ⟨hmain, hpresent, fun hh hnone => ?_⟩
  rw [stepOp, hh] at hnone
  match hfree : c.mb.free_queue with
  | f :: rest =>
    rw [GetRenderFrame, hfree] at hnone
    simp at hnone
  | [] =>
    rw [GetRenderFrame, hfree] at hnone
    have hne := hpresent hh hfree
    match hlast : c.mb.present_queue.getLast? with
    | some f =>
      rw [hlast] at hnone
      simp at hnone
    | none =>
      rw [List.getLast?_eq_getLast _ hne] at hlast
      simp at hlast

/-- Witness for C10 on a concrete operation sequence that drains the free
queue and recycles through the present deque. -/
theorem mailbox_frame_conservation_witness :
    ∃ c : Config, runOps initConfig [MailboxOp.getRender, MailboxOp.releaseRender,
      MailboxOp.tryGetPresent, MailboxOp.getRender, MailboxOp.releaseRender] = some c ∧
    framesOf c = ({0, 1, 2, 3} : Multiset Nat) ∧
    (c.held = none → c.mb.free_queue = [] → c.mb.present_queue ≠ []) := by
  match hrun : runOps initConfig [MailboxOp.getRender, MailboxOp.releaseRender,
      MailboxOp.tryGetPresent, MailboxOp.getRender, MailboxOp.releaseRender] with
  | some c =>
    have hmain := mailbox_frame_conservation _ c hrun
    exact ⟨c, rfl, hmain.1, hmain.2.1⟩
  | none =>
    exact absurd hrun (by decide)

end OGLMailbox

namespace OGLMailbox

theorem no_release_invariant : ∀ (ops : List MailboxOp) (c0 c : Config),
    MailboxOp.releaseRender ∉ ops →
    c0.mb.present_queue = [] → c0.mb.previous_frame = none →
    runOps c0 ops = some c →
    c.mb.present_queue = [] ∧ c.mb.previous_frame = none
  | [], c0, c, _, hp, hv, h => by
    simp only [runOps, Option.some.injEq] at h
    rw [← h]
    exact ⟨hp, hv⟩
  | op :: ops, c0, c, hmem, hp, hv, h => by
    rw [runOps] at h
    have hmem1 : MailboxOp.releaseRender ∉ ops := fun hx => hmem (List.mem_cons_of_mem _ hx)
    have hop : op ≠ MailboxOp.releaseRender := fun hx => hmem (hx ▸ List.mem_cons_self _ _)
    match hstep : stepOp c0 op with
    | none =>
      rw [hstep] at h
      simp at h
    | some c1 =>
      rw [hstep] at h
      refine no_release_invariant ops c1 c hmem1 ?_ ?_ h
      all_goals
        cases op with
        | releaseRender => exact absurd rfl hop
        | getRender =>
          rw [stepOp] at hstep
          match hheld : c0.held with
          | some f =>
            rw [hheld] at hstep
            simp at hstep
          | none =>
            rw [hheld] at hstep
            rw [GetRenderFrame] at hstep
            match hfree : c0.mb.free_queue with
            | f :: rest =>
              rw [hfree] at hstep
              simp only [Option.some.injEq] at hstep
              rw [← hstep]
              simp [hp, hv]
            | [] =>
              rw [hfree, hp] at hstep
              simp at hstep
        | tryGetPresent =>
          rw [stepOp] at hstep
          simp only [Option.some.injEq] at hstep
          rw [← hstep]
          simp [TryGetPresentFrame, hp, hv]

/-- C6: the mailbox presentation policy of `TryGetPresentFrame` — (a) if no
frame has ever been released for presentation, it returns no frame; (b)
when the present deque is empty past the wait it returns the previously
returned frame again and consumes nothing; (c) after a release, it takes
and returns the front (newest) entry, moves the old previous frame and
every other queued entry to the free queue, clears the deque, and records
the returned frame as the new previous frame. -/
theorem mailbox_present_policy :
    (∀ (ops : List MailboxOp) (c : Config), MailboxOp.releaseRender ∉ ops →
      runOps initConfig ops = some c →
      (TryGetPresentFrame c.mb).2 = none) ∧
    (∀ s : MailboxState, s.present_queue = [] →
      TryGetPresentFrame s = (s, s.previous_frame)) ∧
    (∀ (s : MailboxState) (f : Nat),
      TryGetPresentFrame (ReleaseRenderFrame s f) =
        ({ free_queue := (s.free_queue ++ s.previous_frame.toList) ++ s.present_queue,
           present_queue := [], previous_frame := some f }, some f)) := by
  refine ⟨fun ops c hmem h => ?_, fun s hp => ?_, fun s f => ?_⟩
  · have hinv := no_release_invariant ops initConfig c hmem rfl rfl h
    rw [TryGetPresentFrame, hinv.1, hinv.2]
  · rw [TryGetPresentFrame, hp]
  · rw [TryGetPresentFrame, ReleaseRenderFrame]
    cases hprev : s.previous_frame <;> simp [hprev]

/-- Witness for C6: a trace without any release yields no frame; a timeout
on a fresh mailbox returns its (absent) previous frame; releasing frame 0
then presenting returns frame 0 and recycles the rest. -/
theorem mailbox_present_policy_witness :
    (∃ c : Config, runOps initConfig [MailboxOp.getRender, MailboxOp.tryGetPresent] =
      some c ∧ (TryGetPresentFrame c.mb).2 = none) ∧
    TryGetPresentFrame initMailbox = (initMailbox, none) ∧
    TryGetPresentFrame (ReleaseRenderFrame initMailbox 0) =
      ({ free_queue := [0, 1, 2, 3], present_queue := [],
         previous_frame := some 0 }, some 0) := by
  refine ⟨?_, ?_, ?_⟩
  · match hrun : runOps initConfig [MailboxOp.getRender, MailboxOp.tryGetPresent] with
    | some c =>
      exact ⟨c, rfl, mailbox_present_policy.1 _ c (by decide) hrun⟩
    | none =>
      exact absurd hrun (by decide)
  · exact mailbox_present_policy.2.1 initMailbox rfl
  · exact mailbox_present_policy.2.2 initMailbox 0

end OGLMailbox

namespace OSD

/-- Message-type buckets; `Typeless` is kept last so typed messages sort
before it (comment in the source header). -/
inductive MessageType where
  | ControllerConnected
  | SettingChanged
  | Typeless
deriving DecidableEq, Repr

/-- The nine compass anchor positions. -/
inductive Position where
  | TopLeft
  | TopCenter
  | TopRight
  | CenterLeft
  | CenterCenter
  | CenterRight
  | BottomLeft
  | BottomCenter
  | BottomRight
deriving DecidableEq, Repr

/-- The packed RGBA color constants from the source header. -/
def CYAN : Nat := 0xFF00FFFF

def GREEN : Nat := 0xFF00FF00

def RED : Nat := 0xFFFF0000

def YELLOW : Nat := 0xFFFFFF30

def WHITE : Nat := 0xFFFFFFFF

/-- A timed on-screen message (text, color, duration in milliseconds,
anchor position). -/
structure Message where
  message : String
  color : Nat
  duration : Nat
  position : Position
deriving DecidableEq, Repr

/-- An FPS entry: a message plus its live-value provider, modelled by an
opaque identifier (the source stores a `std::function`). -/
structure FPS where
  message : String
  color : Nat
  duration : Nat
  position : Position
  value_provider : Nat
deriving DecidableEq, Repr

/-- A progress entry, like `FPS` with a (current,total) provider. -/
structure Progress where
  message : String
  color : Nat
  duration : Nat
  position : Position
  value_provider : Nat
deriving DecidableEq, Repr

/-- The state of `OnScreenDisplay::MessageQueue`: the timed-message
multimap (as an ordered association list), the single FPS slot with its
live flag, and the progress list. -/
structure MessageQueue where
  queue : List (MessageType × Message)
  fps : FPS
  show_fps : Bool
  progress : List Progress
deriving DecidableEq, Repr

/-- A freshly constructed queue (empty multimap, FPS off). -/
def emptyQueue : MessageQueue :=
  { queue := [], fps := ⟨"", 0, 0, .TopLeft, 0⟩, show_fps := false, progress := [] }

/-- `OnScreenDisplay::AddMessage` as implemented: the function body is
empty, so the state is returned unchanged and no message is recorded. -/
def AddMessage (s : MessageQueue) (message : String) (type : MessageType)
    (ms : Nat) (rgba : Nat) : MessageQueue :=
  s

/-- `OnScreenDisplay::ShowFPS`: a no-op while an FPS readout is live;
otherwise install the message with the YELLOW color, zero duration, the
given position and provider, and set the live flag. -/
def ShowFPS (s : MessageQueue) (message : String) (value_provider : Nat)
    (position : Position) : MessageQueue :=
  if s.show_fps then s
  else { s with fps := ⟨message, YELLOW, 0, position, value_provider⟩, show_fps := true }

/-- `OnScreenDisplay::RemoveFPS`: clear the live flag (a no-op when it is
already clear). -/
def RemoveFPS (s : MessageQueue) : MessageQueue :=
  if ¬ s.show_fps then s else { s with show_fps := false }

/-- `OnScreenDisplay::ShowProgress`: append a WHITE progress entry;
multiple may coexist. -/
def ShowProgress (s : MessageQueue) (message : String) (value_provider : Nat)
    (position : Position) : MessageQueue :=
  { s with progress := s.progress ++ [⟨message, WHITE, 0, position, value_provider⟩] }

/-- C7 (documents the code bug): `AddMessage` is an empty stub, so after
any call the message multimap is exactly what it was before — in
particular, adding a message to a fresh display leaves the multimap empty
and the supplied message is not contained in it, contradicting the claim
that the multimap contains the queued message. -/
theorem addMessage_is_noop :
    (∀ (s : MessageQueue) (m : String) (ty : MessageType) (ms rgba : Nat),
      AddMessage s m ty ms rgba = s) ∧
    AddMessage emptyQueue "test" .SettingChanged 2000 WHITE = emptyQueue ∧
    (AddMessage emptyQueue "test" .SettingChanged 2000 WHITE).queue = [] :=
  ⟨fun _ _ _ _ _ => rfl, rfl, rfl⟩

/-- C8: at most one FPS entry exists (structurally the single `fps` slot
guarded by `show_fps`); a second `ShowFPS` while one is live changes
nothing, so the first entry's message and provider stay installed; after
`RemoveFPS`, the next `ShowFPS` always installs the newly supplied message
and provider. -/
theorem single_fps_invariant :
    (∀ (s : MessageQueue) (m : String) (v : Nat) (p : Position),
      s.show_fps = true → ShowFPS s m v p = s) ∧
    (∀ (s : MessageQueue) (m : String) (v : Nat) (p : Position),
      (ShowFPS (RemoveFPS s) m v p).fps = ⟨m, YELLOW, 0, p, v⟩ ∧
      (ShowFPS (RemoveFPS s) m v p).show_fps = true) := by
  constructor
  · intro s m v p hlive
    rw [ShowFPS, if_pos hlive]
  · intro s m v p
    have hoff : (RemoveFPS s).show_fps = false := by
      rw [RemoveFPS]
      by_cases h : s.show_fps
      · rw [if_neg (by simpa using h)]
      · rw [if_pos h]
        simpa using h
    rw [ShowFPS, if_neg (by simp [hoff])]
    exact ⟨rfl, rfl⟩

/-- Witness for C8: a second `ShowFPS` keeps the first provider; after
`RemoveFPS` the new provider is installed. -/
theorem single_fps_invariant_witness :
    ShowFPS (ShowFPS emptyQueue "fps" 1 .TopLeft) "other" 2 .TopRight =
      ShowFPS emptyQueue "fps" 1 .TopLeft ∧
    (ShowFPS (RemoveFPS (ShowFPS emptyQueue "fps" 1 .TopLeft)) "other" 2
      .TopRight).fps.value_provider = 2 := by
  constructor
  · exact single_fps_invariant.1 (ShowFPS emptyQueue "fps" 1 .TopLeft) "other" 2
      .TopRight (by decide)
  · rw [(single_fps_invariant.2 (ShowFPS emptyQueue "fps" 1 .TopLeft) "other" 2
      .TopRight).1]

end OSD

namespace VideoCore

/-- `VideoCore::GetResolutionScaleFactor`: the hardware-renderer toggle,
the configured resolution-factor override and the render window's
framebuffer-layout scaling ratio are the three inputs the source reads. -/
def GetResolutionScaleFactor (hw_renderer_enabled : Bool)
    (resolution_factor : Nat) (window_scaling : Nat) : Nat :=
  if hw_renderer_enabled then
    if resolution_factor ≠ 0 then resolution_factor else window_scaling
  else 1

/-- C9: resolution-scale policy — exactly 1 whenever hardware rendering is
disabled regardless of the override; the override when hardware rendering
is enabled and the override is nonzero; otherwise the window's scaling
ratio. -/
theorem resolution_scale_policy :
    (∀ (rf ws : Nat), GetResolutionScaleFactor false rf ws = 1) ∧
    (∀ (rf ws : Nat), rf ≠ 0 → GetResolutionScaleFactor true rf ws = rf) ∧
    (∀ (ws : Nat), GetResolutionScaleFactor true 0 ws = ws) := by
  refine ⟨fun rf ws => rfl, fun rf ws h => ?_, fun ws => rfl⟩
  rw [GetResolutionScaleFactor, if_pos rfl, if_pos h]

/-- Witness for C9 at concrete settings. -/
theorem resolution_scale_policy_witness :
    GetResolutionScaleFactor false 3 2 = 1 ∧
    GetResolutionScaleFactor true 3 2 = 3 ∧
    GetResolutionScaleFactor true 0 2 = 2 :=
  ⟨resolution_scale_policy.1 3 2, resolution_scale_policy.2.1 3 2 (by decide),
   resolution_scale_policy.2.2 2⟩

end VideoCore
